import Mathlib

/-!
Shallow embedding of `file/sequence_file_reader.cc` (RocksDB): the direct-I/O
`SequentialFileReader::Read`/`Skip` path, the `ReadaheadSequentialFile`
decorator (`Read`, `Skip`, `TryReadFromCache`, `ReadIntoBuffer`,
`InvalidateCache`) and the factory `NewReadaheadSequentialFile`.

Bytes are modelled as natural numbers; the wrapped `SequentialFile` is a known
byte list together with a sequential position, with an optional fault flag so
that error propagation can be stated.  Every operation on the decorator also
returns the list of calls it issued on the wrapped file, so that claims about
fill counts and bypass reads are statable.
-/

deriving instance DecidableEq for Except

namespace SeqFileReader

/-- Modelled from the spec: `Roundup` of `util/aligned_buffer.h` is not under
`src/`; per the spec it rounds `x` up to the next multiple of `y`
(ceil to alignment). -/
def roundup (x y : Nat) : Nat := ((x + y - 1) / y) * y

/-- Modelled from the spec: `TruncateToPageBoundary` of `util/aligned_buffer.h`
is not under `src/`; per the spec it rounds `off` down to a multiple of
`alignment` (floor to alignment). -/
def truncateToPageBoundary (alignment off : Nat) : Nat := off - off % alignment

/-- The wrapped `SequentialFile`: fixed content, a sequential position, and a
fault flag used to model an I/O error reported by the underlying handle. -/
structure SeqFile where
  content : List Nat
  pos : Nat
  failing : Bool
deriving DecidableEq

/-- `SequentialFile::Read(n)`: returns the next `n` bytes (fewer at EOF) and
advances the position by the number of bytes actually returned. -/
def SeqFile.fileRead (f : SeqFile) (n : Nat) : Except Unit (List Nat × SeqFile) :=
  if f.failing then .error ()
  else
    let bytes := (f.content.drop f.pos).take n
    .ok (bytes, { f with pos := f.pos + bytes.length })

/-- `SequentialFile::Skip(n)`: advances the position by `n` (the real API does
not report how many bytes were actually skipped). -/
def SeqFile.fileSkip (f : SeqFile) (n : Nat) : Except Unit SeqFile :=
  if f.failing then .error ()
  else .ok { f with pos := f.pos + n }

/-- A call issued on the wrapped file: a buffer fill (`ReadIntoBuffer`), a
direct bypass read, or a forwarded skip.  Fields of the read events: file
position at the call, requested length, returned length. -/
inductive FileOp where
  | fill : Nat → Nat → Nat → FileOp
  | direct : Nat → Nat → Nat → FileOp
  | fskip : Nat → FileOp
deriving DecidableEq

/-- State of `ReadaheadSequentialFile`: the wrapped file, the constants
`alignment_` and `readahead_size_`, and the mutable fields `buffer_`
(its valid bytes), `buffer_offset_` and `read_offset_`. -/
structure RA where
  file : SeqFile
  alignment : Nat
  readahead_size : Nat
  buffer : List Nat
  buffer_offset : Nat
  read_offset : Nat
deriving DecidableEq

/-- The `ReadaheadSequentialFile` constructor: `readahead_size_` is the
requested size rounded up to the wrapped file's required alignment; the buffer
starts empty and both offsets start at 0. -/
def mkRA (content : List Nat) (alignment readahead_req : Nat) : RA :=
  { file := { content := content, pos := 0, failing := false }
    alignment := alignment
    readahead_size := roundup readahead_req alignment
    buffer := []
    buffer_offset := 0
    read_offset := 0 }

/-- `ReadaheadSequentialFile::TryReadFromCache`: on a miss (cursor outside the
buffered range) returns `false` with nothing read; on a hit copies
`min(remaining buffered bytes, n)` bytes out of the buffer and advances
`read_offset_` by that amount.  Returns (hit?, cached_len, bytes, new state). -/
def RA.tryReadFromCache (st : RA) (n : Nat) : Bool × Nat × List Nat × RA :=
  if st.read_offset < st.buffer_offset ∨
      st.buffer_offset + st.buffer.length ≤ st.read_offset then
    (false, 0, [], st)
  else
    let offset_in_buffer := st.read_offset - st.buffer_offset
    let cached_len := min (st.buffer.length - offset_in_buffer) n
    (true, cached_len, (st.buffer.drop offset_in_buffer).take cached_len,
      { st with read_offset := st.read_offset + cached_len })

/-- `ReadaheadSequentialFile::ReadIntoBuffer(n)`: reads the next `n` bytes
(capped to the buffer capacity, which equals `readahead_size_`) from the
wrapped file into the buffer; on success records `buffer_offset_ = read_offset_`
and the buffer's new valid size.  Also returns the fill event issued. -/
def RA.readIntoBuffer (st : RA) (n : Nat) : Except Unit (RA × FileOp) :=
  let m := if st.readahead_size < n then st.readahead_size else n
  match st.file.fileRead m with
  | .error e => .error e
  | .ok (bytes, f) =>
      .ok ({ st with file := f, buffer_offset := st.read_offset, buffer := bytes },
        .fill st.file.pos m bytes.length)

/-- `ReadaheadSequentialFile::Read(n)`: serve from the cache when possible;
return early when fully served or when a short buffer signals EOF; otherwise
either bypass the cache with a direct read of the remainder (clearing the
buffer) or refill the buffer and serve the remainder from it.
Returns (result, new state, wrapped-file calls issued). -/
def RA.read (st : RA) (n : Nat) : Except Unit (List Nat) × RA × List FileOp :=
  let t := st.tryReadFromCache n
  let hit := t.1
  let cached_len := t.2.1
  let cbytes := t.2.2.1
  let st1 := t.2.2.2
  if hit = true ∧ (cached_len = n ∨ st1.buffer.length < st1.readahead_size) then
    (.ok cbytes, st1, [])
  else
    let n1 := n - cached_len
    if st1.readahead_size ≤ n1 + st1.alignment then
      match st1.file.fileRead n1 with
      | .error _ => (.error (), { st1 with buffer := [] }, [])
      | .ok (bytes, f) =>
          (.ok (cbytes ++ bytes),
            { st1 with
                file := f
                read_offset := st1.read_offset + bytes.length
                buffer := [] },
            [.direct st1.file.pos n1 bytes.length])
    else
      match st1.readIntoBuffer st1.readahead_size with
      | .error _ => (.error (), st1, [])
      | .ok (st2, op) =>
          let u := st2.tryReadFromCache n1
          (.ok (cbytes ++ u.2.2.1), u.2.2.2, [op])

/-- `ReadaheadSequentialFile::Skip(n)`: first consume the cached portion (all
of it when the skip reaches past the buffered range, otherwise just advance
`read_offset_`); any residual skip is forwarded to the wrapped file and the
buffer is cleared, whether or not the forwarded skip succeeded. -/
def RA.skip (st : RA) (n : Nat) : Except Unit Unit × RA × List FileOp :=
  let p :=
    if 0 < st.buffer.length then
      if st.buffer_offset + st.buffer.length ≤ st.read_offset + n then
        (n - (st.buffer_offset + st.buffer.length - st.read_offset),
          { st with read_offset := st.buffer_offset + st.buffer.length })
      else
        (0, { st with read_offset := st.read_offset + n })
    else (n, st)
  let n1 := p.1
  let st1 := p.2
  if 0 < n1 then
    match st1.file.fileSkip n1 with
    | .error e => (.error e, { st1 with buffer := [] }, [.fskip n1])
    | .ok f =>
        (.ok (),
          { st1 with
              file := f
              read_offset := st1.read_offset + n1
              buffer := [] },
          [.fskip n1])
  else (.ok (), st1, [])

/-- `ReadaheadSequentialFile::InvalidateCache`: clears the buffer (the forward
to the wrapped file carries no byte-level meaning in this model). -/
def RA.invalidateCache (st : RA) : RA := { st with buffer := [] }

/-- Run a sequence of `read` calls, collecting the byte lists returned. -/
def RA.runReads (st : RA) : List Nat → List (List Nat) × RA
  | [] => ([], st)
  | n :: ns =>
      match st.read n with
      | (.ok bytes, st1, _) =>
          let rest := st1.runReads ns
          (bytes :: rest.1, rest.2)
      | (.error _, st1, _) => ([], st1)

/-- Concatenation of the byte lists returned by a sequence of reads. -/
def catBytes : List (List Nat) → List Nat
  | [] => []
  | b :: bs => b ++ catBytes bs

/-- The cursor of `SequentialFileReader` under direct I/O: `offset_`. -/
structure SFR where
  offset : Nat
deriving DecidableEq

/-- `SequentialFileReader::Read` under direct I/O reserves `[offset, offset+n)`
by `offset_.fetch_add(n)`: the cursor advances by `n` unconditionally. -/
def SFR.readAdvance (d : SFR) (n : Nat) : SFR := { offset := d.offset + n }

/-- `SequentialFileReader::Skip` under direct I/O: `offset_ += n`. -/
def SFR.skipAdvance (d : SFR) (n : Nat) : SFR := { offset := d.offset + n }

/-- The copy-out step of `SequentialFileReader::Read` under direct I/O, given
the bytes `tmp` returned by the positioned read of the aligned range: when
`offset_advance < tmp.length`, copy `min(tmp.length - offset_advance, n)` bytes
starting at `offset_advance`; otherwise the result is empty.  (`AlignedBuffer`'s
copy-out-range is modelled from the spec, `util/aligned_buffer.h` not being
under `src/`.) -/
def directReadResult (offset n alignment : Nat) (tmp : List Nat) : List Nat :=
  let aligned_offset := truncateToPageBoundary alignment offset
  let offset_advance := offset - aligned_offset
  if offset_advance < tmp.length then
    (tmp.drop offset_advance).take (min (tmp.length - offset_advance) n)
  else []

/-- `SequentialFileReader::NewReadaheadSequentialFile`: when the file's
required alignment is at least the requested readahead size, return the
original file unwrapped (`none` here); otherwise wrap it in a
`ReadaheadSequentialFile` built from the request. -/
def newReadaheadSequentialFile (content : List Nat) (alignment readahead_size : Nat) :
    Option RA :=
  if readahead_size ≤ alignment then none
  else some (mkRA content alignment readahead_size)

/-- The 2000-byte known pattern of the spec's concrete scenario. -/
def pattern2000 : List Nat := (List.range 2000).map (fun i => i % 256)

/-- Concrete scenario: decorator over the 2000-byte source, alignment 512,
requested readahead 1000. -/
def scenario0 : RA := mkRA pattern2000 512 1000

/-- Concrete scenario, after `read(100)`. -/
def scenarioRead1 : Except Unit (List Nat) × RA × List FileOp := scenario0.read 100

/-- Concrete scenario, after the following `read(500)`. -/
def scenarioRead2 : Except Unit (List Nat) × RA × List FileOp :=
  scenarioRead1.2.1.read 500

/-- Concrete scenario, after the following `read(1000)`. -/
def scenarioRead3 : Except Unit (List Nat) × RA × List FileOp :=
  scenarioRead2.2.1.read 1000

/-- A 1-byte source wrapped with alignment 1 and readahead size 4: its first
fill is partial (EOF). -/
def eofFile : RA := mkRA [7] 1 4

/-- A decorator state whose wrapped file reports an I/O error: 4 of the 8
source bytes are cached, one byte of the cache is already consumed. -/
def failSt : RA :=
  { file := { content := [0, 1, 2, 3, 4, 5, 6, 7], pos := 4, failing := true }
    alignment := 1
    readahead_size := 4
    buffer := [0, 1, 2, 3]
    buffer_offset := 0
    read_offset := 1 }

/-- Like `failSt` but with a small readahead size, so that the same `read(4)`
takes the bypass path instead of the refill path. -/
def failStBypass : RA := { failSt with readahead_size := 2, buffer := [0, 1] }

/-- State invariant of `ReadaheadSequentialFile`, established by the
constructor and preserved by `Read` and `Skip`: the wrapped file is healthy;
the buffer holds exactly the source bytes starting at `buffer_offset`; when the
buffer is empty the wrapped file stands at `read_offset`, otherwise
`read_offset` lies in the buffered range whose end is the wrapped file's
position; a short nonempty buffer can only arise from a fill that hit EOF. -/
def Inv (st : RA) : Prop :=
  st.file.failing = false ∧
  st.buffer = (st.file.content.drop st.buffer_offset).take st.buffer.length ∧
  (st.buffer = [] → st.file.pos = st.read_offset) ∧
  (st.buffer ≠ [] →
    st.buffer_offset ≤ st.read_offset ∧
    st.read_offset ≤ st.buffer_offset + st.buffer.length ∧
    st.file.pos = st.buffer_offset + st.buffer.length) ∧
  (st.buffer ≠ [] → st.buffer.length < st.readahead_size →
    st.buffer_offset + st.buffer.length = st.file.content.length)

instance (st : RA) : Decidable (Inv st) := by
  unfold Inv
  infer_instance

theorem le_roundup (x y : Nat) (hy : 0 < y) : x ≤ roundup x y := by
  unfold roundup
  rw [Nat.mul_comm]
  have h1 := Nat.mod_add_div (x + y - 1) y
  have h2 := Nat.mod_lt (x + y - 1) hy
  set p := y * ((x + y - 1) / y) with hp
  omega

theorem dvd_roundup (x y : Nat) : y ∣ roundup x y := dvd_mul_left y ((x + y - 1) / y)

theorem dvd_truncate (alignment off : Nat) :
    alignment ∣ truncateToPageBoundary alignment off := by
  have h1 := Nat.mod_add_div off alignment
  have heq : truncateToPageBoundary alignment off = alignment * (off / alignment) := by
    unfold truncateToPageBoundary
    set p := alignment * (off / alignment) with hp
    omega
  rw [heq]
  exact Dvd.intro _ rfl

theorem tryRead_miss (st : RA) (n : Nat)
    (h : st.read_offset < st.buffer_offset ∨
      st.buffer_offset + st.buffer.length ≤ st.read_offset) :
    st.tryReadFromCache n = (false, 0, [], st) := by
  unfold RA.tryReadFromCache
  rw [if_pos h]

theorem tryRead_hit (st : RA) (n : Nat)
    (h1 : st.buffer_offset ≤ st.read_offset)
    (h2 : st.read_offset < st.buffer_offset + st.buffer.length) :
    st.tryReadFromCache n =
      (true, min (st.buffer.length - (st.read_offset - st.buffer_offset)) n,
        (st.buffer.drop (st.read_offset - st.buffer_offset)).take
          (min (st.buffer.length - (st.read_offset - st.buffer_offset)) n),
        { st with read_offset :=
            st.read_offset + min (st.buffer.length - (st.read_offset - st.buffer_offset)) n }) := by
  unfold RA.tryReadFromCache
  rw [if_neg (by omega)]

theorem buffer_segment (st : RA)
    (hbuf : st.buffer = (st.file.content.drop st.buffer_offset).take st.buffer.length)
    (h1 : st.buffer_offset ≤ st.read_offset) (c : Nat)
    (hc : c ≤ st.buffer.length - (st.read_offset - st.buffer_offset)) :
    (st.buffer.drop (st.read_offset - st.buffer_offset)).take c =
      (st.file.content.drop st.read_offset).take c := by
  conv_lhs => rw [hbuf]
  rw [List.drop_take, List.drop_drop, List.take_take]
  have h3 : st.buffer_offset + (st.read_offset - st.buffer_offset) = st.read_offset := by
    omega
  have h4 : min c (st.buffer.length - (st.read_offset - st.buffer_offset)) = c := by
    omega
  rw [h3, h4]

theorem length_take_drop (l : List Nat) (r m : Nat) :
    ((l.drop r).take m).length = min m (l.length - r) := by
  simp [List.length_take, List.length_drop]

theorem buffer_length_le (st : RA)
    (hbuf : st.buffer = (st.file.content.drop st.buffer_offset).take st.buffer.length) :
    st.buffer.length ≤ st.file.content.length - st.buffer_offset := by
  have h := congrArg List.length hbuf
  rw [length_take_drop] at h
  omega

theorem readIntoBuffer_self (st : RA) (hf : st.file.failing = false) :
    st.readIntoBuffer st.readahead_size = .ok
      ({ st with
          file :=
            { content := st.file.content
              pos := st.file.pos +
                ((st.file.content.drop st.file.pos).take st.readahead_size).length
              failing := false }
          buffer_offset := st.read_offset
          buffer := (st.file.content.drop st.file.pos).take st.readahead_size },
        .fill st.file.pos st.readahead_size
          ((st.file.content.drop st.file.pos).take st.readahead_size).length) := by
  unfold RA.readIntoBuffer SeqFile.fileRead
  rw [if_neg (lt_irrefl st.readahead_size), hf]
  rfl

theorem read_early (st : RA) (n : Nat)
    (h1 : st.buffer_offset ≤ st.read_offset)
    (h2 : st.read_offset < st.buffer_offset + st.buffer.length)
    (hcond : min (st.buffer.length - (st.read_offset - st.buffer_offset)) n = n ∨
      st.buffer.length < st.readahead_size) :
    st.read n =
      (.ok ((st.buffer.drop (st.read_offset - st.buffer_offset)).take
          (min (st.buffer.length - (st.read_offset - st.buffer_offset)) n)),
        { st with read_offset :=
            st.read_offset + min (st.buffer.length - (st.read_offset - st.buffer_offset)) n },
        []) := by
  unfold RA.read
  rw [tryRead_hit st n h1 h2]
  exact if_pos ⟨rfl, hcond⟩

theorem fileRead_ok (f : SeqFile) (n : Nat) (hf : f.failing = false) :
    f.fileRead n = .ok ((f.content.drop f.pos).take n,
      { content := f.content
        pos := f.pos + ((f.content.drop f.pos).take n).length
        failing := false }) := by
  unfold SeqFile.fileRead
  rw [hf]
  rfl

theorem fileSkip_ok (f : SeqFile) (n : Nat) (hf : f.failing = false) :
    f.fileSkip n = .ok { content := f.content, pos := f.pos + n, failing := false } := by
  unfold SeqFile.fileSkip
  rw [hf]
  rfl

theorem take_eq_take_of_ge (l : List Nat) (a b : Nat) (ha : l.length ≤ a)
    (hb : l.length ≤ b) : l.take a = l.take b := by
  rw [List.take_of_length_le ha, List.take_of_length_le hb]

theorem read_fall (st : RA) (n : Nat) (b : Bool) (cl : Nat) (cb : List Nat) (st1 : RA)
    (ht : st.tryReadFromCache n = (b, cl, cb, st1))
    (hno : ¬(b = true ∧ (cl = n ∨ st1.buffer.length < st1.readahead_size))) :
    st.read n =
      (if st1.readahead_size ≤ n - cl + st1.alignment then
        match st1.file.fileRead (n - cl) with
        | .error _ => (.error (), { st1 with buffer := [] }, [])
        | .ok (bytes, f) =>
            (.ok (cb ++ bytes),
              { st1 with
                  file := f
                  read_offset := st1.read_offset + bytes.length
                  buffer := [] },
              [.direct st1.file.pos (n - cl) bytes.length])
      else
        match st1.readIntoBuffer st1.readahead_size with
        | .error _ => (.error (), st1, [])
        | .ok (st2, op) =>
            let u := st2.tryReadFromCache (n - cl)
            (.ok (cb ++ u.2.2.1), u.2.2.2, [op])) := by
  unfold RA.read
  rw [ht]
  exact if_neg hno

theorem tryRead_at_start (st : RA) (m : Nat)
    (hbo : st.buffer_offset = st.read_offset) (hpos0 : 0 < st.buffer.length) :
    st.tryReadFromCache m =
      (true, min st.buffer.length m, st.buffer.take (min st.buffer.length m),
        { st with read_offset := st.read_offset + min st.buffer.length m }) := by
  unfold RA.tryReadFromCache
  rw [if_neg (by omega)]
  have h0 : st.read_offset - st.buffer_offset = 0 := by omega
  rw [h0]
  simp

theorem read_spec (st : RA) (n : Nat) (hInv : Inv st) :
    (st.read n).1 = .ok ((st.file.content.drop st.read_offset).take n) ∧
    (st.read n).2.1.read_offset =
      st.read_offset + min n (st.file.content.length - st.read_offset) ∧
    (st.read n).2.1.file.content = st.file.content ∧
    (st.read n).2.1.alignment = st.alignment ∧
    (st.read n).2.1.readahead_size = st.readahead_size ∧
    Inv (st.read n).2.1 := by
  obtain ⟨hf, hbuf, hempty, hne, heof⟩ := hInv
  have hblen := buffer_length_le st hbuf
  by_cases hhit : st.buffer_offset ≤ st.read_offset ∧
      st.read_offset < st.buffer_offset + st.buffer.length
  · obtain ⟨hb1, hb2⟩ := hhit
    have hbne : st.buffer ≠ [] := by
      intro he
      rw [he] at hb2
      simp at hb2
      omega
    obtain ⟨hlo, hhi, hpos⟩ := hne hbne
    by_cases hearly : min (st.buffer.length - (st.read_offset - st.buffer_offset)) n = n ∨
        st.buffer.length < st.readahead_size
    · rw [read_early st n hb1 hb2 hearly]
      dsimp only
      have hseg := buffer_segment st hbuf hb1
        (min (st.buffer.length - (st.read_offset - st.buffer_offset)) n)
        (Nat.min_le_left _ _)
      have hminle : min (st.buffer.length - (st.read_offset - st.buffer_offset)) n ≤
          st.buffer.length - (st.read_offset - st.buffer_offset) := Nat.min_le_left _ _
      have hminn : min (st.buffer.length - (st.read_offset - st.buffer_offset)) n ≤ n :=
        Nat.min_le_right _ _
      refine ⟨?_, ?_, rfl, rfl, rfl, ?_⟩
      · rw [hseg]
        by_cases hmn : min (st.buffer.length - (st.read_offset - st.buffer_offset)) n = n
        · rw [hmn]
        · have hLeq := heof hbne (by tauto)
          congr 1
          apply take_eq_take_of_ge
          · rw [List.length_drop]
            omega
          · rw [List.length_drop]
            omega
      · by_cases hmn : min (st.buffer.length - (st.read_offset - st.buffer_offset)) n = n
        · omega
        · have hLeq := heof hbne (by tauto)
          omega
      · unfold Inv
        dsimp only
        exact ⟨hf, hbuf, fun he => absurd he hbne,
          fun _ => ⟨by omega, by omega, hpos⟩, fun _ hs => heof hbne hs⟩
    · rw [read_fall st n true _ _ _ (tryRead_hit st n hb1 hb2) (fun hc => hearly hc.2)]
      push_neg at hearly
      obtain ⟨hclne, hra⟩ := hearly
      have hminle : min (st.buffer.length - (st.read_offset - st.buffer_offset)) n ≤
          st.buffer.length - (st.read_offset - st.buffer_offset) := Nat.min_le_left _ _
      have hminn : min (st.buffer.length - (st.read_offset - st.buffer_offset)) n ≤ n :=
        Nat.min_le_right _ _
      have hclv : min (st.buffer.length - (st.read_offset - st.buffer_offset)) n =
          st.buffer.length - (st.read_offset - st.buffer_offset) := by omega
      have hr1 : st.read_offset + min (st.buffer.length - (st.read_offset - st.buffer_offset)) n =
          st.buffer_offset + st.buffer.length := by omega
      have hseg := buffer_segment st hbuf hb1
        (min (st.buffer.length - (st.read_offset - st.buffer_offset)) n)
        (Nat.min_le_left _ _)
      dsimp only
      by_cases hbp : st.readahead_size ≤
          n - min (st.buffer.length - (st.read_offset - st.buffer_offset)) n + st.alignment
      · rw [if_pos hbp, fileRead_ok st.file _ hf]
        dsimp only
        refine ⟨?_, ?_, rfl, rfl, rfl, ?_⟩
        · rw [hseg, hpos, ← hr1, ← List.drop_drop, ← List.take_add]
          have hn : min (st.buffer.length - (st.read_offset - st.buffer_offset)) n +
              (n - min (st.buffer.length - (st.read_offset - st.buffer_offset)) n) = n := by
            omega
          rw [hn]
        · rw [length_take_drop, hpos]
          omega
        · refine ⟨rfl, rfl, fun _ => ?_, fun hne' => absurd rfl hne', fun hb _ => absurd rfl hb⟩
          dsimp only
          rw [length_take_drop, hpos]
          omega
      · rw [if_neg hbp]
        push_neg at hbp
        have hRIB := readIntoBuffer_self
          ({ st with read_offset :=
              st.read_offset + min (st.buffer.length - (st.read_offset - st.buffer_offset)) n } : RA) hf
        dsimp only at hRIB
        rw [hRIB]
        dsimp only
        have hposr2 : st.file.pos = st.read_offset +
            min (st.buffer.length - (st.read_offset - st.buffer_offset)) n := by omega
        have hblen2 := length_take_drop st.file.content st.file.pos st.readahead_size
        by_cases hbl : 0 < ((st.file.content.drop st.file.pos).take st.readahead_size).length
        · rw [tryRead_at_start _ _ rfl (by dsimp only; exact hbl)]
          dsimp only
          refine ⟨?_, ?_, rfl, rfl, rfl, ?_⟩
          · have hblen3 := length_take_drop st.file.content
              (st.read_offset + min (st.buffer.length - (st.read_offset - st.buffer_offset)) n)
              st.readahead_size
            rw [hseg, List.take_take, hposr2, hblen3, ← List.drop_drop, ← List.take_add]
            congr 1
            apply List.take_eq_take.mpr
            rw [List.length_drop]
            omega
          · omega
          · refine ⟨rfl, ?_, fun he => ?_, fun _ => ⟨?_, ?_, ?_⟩, fun _ hs => ?_⟩
            · dsimp only
              rw [hposr2]
              apply List.take_eq_take.mpr
              rw [List.length_drop]
              have hblen3 := length_take_drop st.file.content
                (st.read_offset + min (st.buffer.length - (st.read_offset - st.buffer_offset)) n)
                st.readahead_size
              omega
            · dsimp only at he
              rw [he] at hbl
              simp at hbl
            · dsimp only
              omega
            · dsimp only
              omega
            · dsimp only
              omega
            · dsimp only at hs ⊢
              omega
        · rw [tryRead_miss _ _ (Or.inr (by dsimp only; omega))]
          dsimp only
          have hbl0 : ((st.file.content.drop st.file.pos).take st.readahead_size).length = 0 := by
            omega
          have hbnil : (st.file.content.drop st.file.pos).take st.readahead_size = [] :=
            List.eq_nil_of_length_eq_zero hbl0
          have hra0 : 0 < st.readahead_size := by omega
          have hLpos : st.file.content.length ≤ st.file.pos := by omega
          refine ⟨?_, ?_, rfl, rfl, rfl, ?_⟩
          · rw [hseg, List.append_nil]
            congr 1
            apply take_eq_take_of_ge
            · rw [List.length_drop]
              omega
            · rw [List.length_drop]
              omega
          · omega
          · refine ⟨rfl, ?_, fun _ => ?_, fun hne' => absurd hbnil hne', fun hb _ => absurd hbnil hb⟩
            · dsimp only
              rw [hbnil]
              rfl
            · dsimp only
              omega
  · have hmiss : st.read_offset < st.buffer_offset ∨
        st.buffer_offset + st.buffer.length ≤ st.read_offset := by omega
    have hposr : st.file.pos = st.read_offset := by
      by_cases hbe : st.buffer = []
      · exact hempty hbe
      · obtain ⟨hlo, hhi, hpos⟩ := hne hbe
        have hlen0 : st.buffer.length ≠ 0 := fun h0 => hbe (List.eq_nil_of_length_eq_zero h0)
        omega
    rw [read_fall st n false 0 [] st (tryRead_miss st n hmiss) (by simp)]
    dsimp only
    simp only [Nat.sub_zero, List.nil_append]
    by_cases hbp : st.readahead_size ≤ n + st.alignment
    · rw [if_pos hbp, fileRead_ok st.file n hf]
      dsimp only
      refine ⟨?_, ?_, rfl, rfl, rfl, ?_⟩
      · rw [hposr]
      · rw [length_take_drop, hposr]
      · refine ⟨rfl, rfl, fun _ => ?_, fun hne' => absurd rfl hne', fun hb _ => absurd rfl hb⟩
        dsimp only
        rw [length_take_drop]
        omega
    · rw [if_neg hbp]
      push_neg at hbp
      have hRIB := readIntoBuffer_self st hf
      rw [hRIB]
      dsimp only
      have hblen2 := length_take_drop st.file.content st.file.pos st.readahead_size
      by_cases hbl : 0 < ((st.file.content.drop st.file.pos).take st.readahead_size).length
      · rw [tryRead_at_start _ _ rfl (by dsimp only; exact hbl)]
        dsimp only
        refine ⟨?_, ?_, rfl, rfl, rfl, ?_⟩
        · rw [List.take_take, hposr]
          congr 1
          apply List.take_eq_take.mpr
          rw [List.length_drop]
          have hblen3 := length_take_drop st.file.content st.read_offset st.readahead_size
          omega
        · omega
        · refine ⟨rfl, ?_, fun he => ?_, fun _ => ⟨?_, ?_, ?_⟩, fun _ hs => ?_⟩
          · dsimp only
            rw [hposr]
            apply List.take_eq_take.mpr
            rw [List.length_drop]
            have hblen3 := length_take_drop st.file.content st.read_offset st.readahead_size
            omega
          · dsimp only at he
            rw [he] at hbl
            simp at hbl
          · dsimp only
            omega
          · dsimp only
            omega
          · dsimp only
            omega
          · dsimp only at hs ⊢
            omega
      · rw [tryRead_miss _ _ (Or.inr (by dsimp only; omega))]
        dsimp only
        have hbl0 : ((st.file.content.drop st.file.pos).take st.readahead_size).length = 0 := by
          omega
        have hbnil : (st.file.content.drop st.file.pos).take st.readahead_size = [] :=
          List.eq_nil_of_length_eq_zero hbl0
        have hra0 : 0 < st.readahead_size := by omega
        have hLpos : st.file.content.length ≤ st.file.pos := by omega
        refine ⟨?_, ?_, rfl, rfl, rfl, ?_⟩
        · have hdnil : st.file.content.drop st.read_offset = [] :=
            List.drop_eq_nil_of_le (by omega)
          rw [hdnil, List.take_nil]
        · omega
        · refine ⟨rfl, ?_, fun _ => ?_, fun hne' => absurd hbnil hne', fun hb _ => absurd hbnil hb⟩
          · dsimp only
            rw [hbnil]
            rfl
          · dsimp only
            omega

theorem skip_spec (st : RA) (n : Nat) (hInv : Inv st) :
    (st.skip n).1 = .ok () ∧
    (st.skip n).2.1.read_offset = st.read_offset + n ∧
    (st.skip n).2.1.file.content = st.file.content ∧
    (st.skip n).2.1.alignment = st.alignment ∧
    (st.skip n).2.1.readahead_size = st.readahead_size ∧
    Inv (st.skip n).2.1 := by
  obtain ⟨hf, hbuf, hempty, hne, heof⟩ := hInv
  have hblen := buffer_length_le st hbuf
  unfold RA.skip
  by_cases hb0 : 0 < st.buffer.length
  · have hbne : st.buffer ≠ [] := fun he => by rw [he] at hb0; simp at hb0
    obtain ⟨hlo, hhi, hpos⟩ := hne hbne
    rw [if_pos hb0]
    by_cases hbeyond : st.buffer_offset + st.buffer.length ≤ st.read_offset + n
    · rw [if_pos hbeyond]
      dsimp only
      by_cases hres : 0 < n - (st.buffer_offset + st.buffer.length - st.read_offset)
      · rw [if_pos hres, fileSkip_ok st.file _ hf]
        dsimp only
        refine ⟨rfl, ?_, rfl, rfl, rfl, ?_⟩
        · omega
        · refine ⟨rfl, rfl, fun _ => ?_, fun hne' => absurd rfl hne', fun hb _ => absurd rfl hb⟩
          dsimp only
          omega
      · rw [if_neg hres]
        dsimp only
        refine ⟨rfl, ?_, rfl, rfl, rfl, ?_⟩
        · omega
        · unfold Inv
          dsimp only
          exact ⟨hf, hbuf, fun he => absurd he hbne,
            fun _ => ⟨by omega, by omega, hpos⟩, fun _ hs => heof hbne hs⟩
    · rw [if_neg hbeyond]
      dsimp only
      rw [if_neg (by omega)]
      dsimp only
      refine ⟨rfl, rfl, rfl, rfl, rfl, ?_⟩
      unfold Inv
      dsimp only
      exact ⟨hf, hbuf, fun he => absurd he hbne,
        fun _ => ⟨by omega, by omega, hpos⟩, fun _ hs => heof hbne hs⟩
  · rw [if_neg hb0]
    dsimp only
    have hbe : st.buffer = [] := List.eq_nil_of_length_eq_zero (by omega)
    have hposr := hempty hbe
    by_cases hres : 0 < n
    · rw [if_pos hres, fileSkip_ok st.file _ hf]
      dsimp only
      refine ⟨rfl, rfl, rfl, rfl, rfl, ?_⟩
      unfold Inv
      dsimp only
      exact ⟨rfl, rfl, fun _ => by omega, fun hne' => absurd rfl hne',
        fun hb _ => absurd rfl hb⟩
    · rw [if_neg hres]
      have hn0 : n = 0 := by omega
      dsimp only
      exact ⟨rfl, by omega, rfl, rfl, rfl, hf, hbuf, hempty, hne, heof⟩

theorem Inv_mkRA (content : List Nat) (alignment readahead_req : Nat) :
    Inv (mkRA content alignment readahead_req) := by
  unfold Inv mkRA
  dsimp only
  exact ⟨rfl, rfl, fun _ => rfl, fun hne' => absurd rfl hne', fun hb _ => absurd rfl hb⟩

theorem take_seq_append (l : List Nat) (r n s : Nat) :
    (l.drop r).take n ++ (l.drop (r + min n (l.length - r))).take s =
      (l.drop r).take (n + s) := by
  rw [List.take_add]
  congr 1
  rw [List.drop_drop]
  by_cases hd : n ≤ l.length - r
  · have hmn : min n (l.length - r) = n := by omega
    rw [hmn]
  · have h1 : l.drop (r + min n (l.length - r)) = [] := List.drop_eq_nil_of_le (by omega)
    have h2 : l.drop (r + n) = [] := List.drop_eq_nil_of_le (by omega)
    rw [h1, h2]

theorem runReads_spec (st : RA) (ns : List Nat) (hInv : Inv st) :
    catBytes (st.runReads ns).1 =
      (st.file.content.drop st.read_offset).take ns.sum := by
  induction ns generalizing st with
  | nil => simp [RA.runReads, catBytes]
  | cons n ns ih =>
      obtain ⟨h1, h2, h3, h4, h5, h6⟩ := read_spec st n hInv
      have hre : st.read n = (.ok ((st.file.content.drop st.read_offset).take n),
          (st.read n).2.1, (st.read n).2.2) := by
        rw [← h1]
      rw [RA.runReads, hre]
      dsimp only
      rw [catBytes, ih _ h6, h3, h2, List.sum_cons]
      exact take_seq_append st.file.content st.read_offset n ns.sum

theorem tryRead_eta (st : RA) (n : Nat) :
    st.tryReadFromCache n = ((st.tryReadFromCache n).1, (st.tryReadFromCache n).2.1,
      (st.tryReadFromCache n).2.2.1,
      { st with read_offset := st.read_offset + (st.tryReadFromCache n).2.1 }) := by
  by_cases hc : st.read_offset < st.buffer_offset ∨
      st.buffer_offset + st.buffer.length ≤ st.read_offset
  · rw [tryRead_miss st n hc]
    rfl
  · rw [tryRead_hit st n (by omega) (by omega)]

set_option maxRecDepth 100000 in
/-- C1: with alignment 512 and requested readahead 1000 (stored 1024) over the
2000-byte pattern source, `read(100)` performs one fill of 1024 bytes and
returns bytes [0,100); the following `read(500)` returns bytes [100,600) from
the cache with no wrapped-file call; the following `read(1000)` issues exactly
one direct read of 576 bytes at file offset 1024, clears the buffer, and
returns the 1000 bytes [600,1600). -/
theorem concrete_scenario_spec :
    scenario0.readahead_size = 1024 ∧
    scenarioRead1.1 = .ok (pattern2000.take 100) ∧
    scenarioRead1.2.2 = [.fill 0 1024 1024] ∧
    scenarioRead2.1 = .ok ((pattern2000.drop 100).take 500) ∧
    scenarioRead2.2.2 = [] ∧
    scenarioRead3.1 = .ok ((pattern2000.drop 600).take 1000) ∧
    scenarioRead3.2.2 = [.direct 1024 576 576] ∧
    scenarioRead3.2.1.buffer = [] ∧
    scenarioRead3.2.1.read_offset = 1600 := by
  decide

/-- C2: for every source content, every alignment and requested readahead
size, and every sequence of read sizes, the concatenation of the bytes the
decorator returns equals the prefix of the source delivered by one single
large read of the total requested size on the wrapped source. -/
theorem cache_transparent (content : List Nat) (alignment readahead_req : Nat)
    (ns : List Nat) :
    catBytes ((mkRA content alignment readahead_req).runReads ns).1 =
      content.take ns.sum ∧
    ∃ f, ({ content := content, pos := 0, failing := false } : SeqFile).fileRead ns.sum =
      .ok (catBytes ((mkRA content alignment readahead_req).runReads ns).1, f) := by
  have h1 : catBytes ((mkRA content alignment readahead_req).runReads ns).1 =
      content.take ns.sum := by
    rw [runReads_spec _ _ (Inv_mkRA content alignment readahead_req)]
    rfl
  refine ⟨h1, ?_⟩
  rw [fileRead_ok _ _ rfl, h1]
  exact ⟨_, rfl⟩

/-- C3: for every offset, request length and power-of-two alignment, the
aligned range computed by the direct-I/O read path contains the requested
range, and both its start and its size are multiples of the alignment. -/
theorem aligned_range_correct (offset n alignment : Nat) (h2 : ∃ k, alignment = 2 ^ k) :
    truncateToPageBoundary alignment offset ≤ offset ∧
    offset + n ≤ truncateToPageBoundary alignment offset +
      (roundup (offset + n) alignment - truncateToPageBoundary alignment offset) ∧
    alignment ∣ truncateToPageBoundary alignment offset ∧
    alignment ∣ (roundup (offset + n) alignment - truncateToPageBoundary alignment offset) := by
  obtain ⟨k, hk⟩ := h2
  have hal : 0 < alignment := hk ▸ Nat.pos_pow_of_pos k (by omega)
  have htr : truncateToPageBoundary alignment offset ≤ offset := Nat.sub_le _ _
  have hru := le_roundup (offset + n) alignment hal
  exact ⟨htr, by omega, dvd_truncate alignment offset,
    Nat.dvd_sub' (dvd_roundup _ _) (dvd_truncate alignment offset)⟩

theorem aligned_range_correct_witness :
    truncateToPageBoundary 512 1000 ≤ 1000 ∧
    1000 + 300 ≤ truncateToPageBoundary 512 1000 +
      (roundup (1000 + 300) 512 - truncateToPageBoundary 512 1000) ∧
    512 ∣ truncateToPageBoundary 512 1000 ∧
    512 ∣ (roundup (1000 + 300) 512 - truncateToPageBoundary 512 1000) :=
  aligned_range_correct 1000 300 512 ⟨9, by decide⟩

/-- C4 counterexample: over a 1-byte source with readahead size 4, the first
`read(1)` issues a fill that returns 1 < 4 bytes (a partial fill signalling
EOF), yet the very next `read(1)` — with no invalidation in between — issues
another fill of the buffer.  This refutes the claim that after a partial fill
no subsequent read issues another fill until an explicit invalidation. -/
theorem eof_refill_counterexample :
    eofFile.readahead_size = 4 ∧
    (eofFile.read 1).2.2 = [.fill 0 4 1] ∧
    ((eofFile.read 1).2.1.read 1).2.2 = [.fill 1 4 0] := by
  decide

/-- C4 (amended): after a partial fill, as long as `read_offset` still lies
inside the buffered range, a `read` issues no call at all on the wrapped file
and returns only remaining cached bytes; once the cached bytes are exhausted a
later read may fill again. -/
theorem eof_short_circuit (st : RA) (n : Nat)
    (hshort : st.buffer.length < st.readahead_size)
    (hlo : st.buffer_offset ≤ st.read_offset)
    (hhi : st.read_offset < st.buffer_offset + st.buffer.length) :
    (st.read n).2.2 = [] ∧
    (st.read n).1 = .ok ((st.buffer.drop (st.read_offset - st.buffer_offset)).take
      (min (st.buffer.length - (st.read_offset - st.buffer_offset)) n)) ∧
    (st.read n).2.1.buffer = st.buffer ∧
    (st.read n).2.1.read_offset = st.read_offset +
      min (st.buffer.length - (st.read_offset - st.buffer_offset)) n := by
  rw [read_early st n hlo hhi (Or.inr hshort)]
  exact ⟨rfl, rfl, rfl, rfl⟩

theorem eof_short_circuit_witness :
    ((mkRA [5, 6, 7] 1 4).read 1).2.1.buffer.length <
      ((mkRA [5, 6, 7] 1 4).read 1).2.1.readahead_size ∧
    ((((mkRA [5, 6, 7] 1 4).read 1).2.1.read 1).2.2 = [] ∧
      (((mkRA [5, 6, 7] 1 4).read 1).2.1.read 1).1 =
        .ok ((((mkRA [5, 6, 7] 1 4).read 1).2.1.buffer.drop
          (((mkRA [5, 6, 7] 1 4).read 1).2.1.read_offset -
            ((mkRA [5, 6, 7] 1 4).read 1).2.1.buffer_offset)).take
          (min (((mkRA [5, 6, 7] 1 4).read 1).2.1.buffer.length -
            (((mkRA [5, 6, 7] 1 4).read 1).2.1.read_offset -
              ((mkRA [5, 6, 7] 1 4).read 1).2.1.buffer_offset)) 1)) ∧
      (((mkRA [5, 6, 7] 1 4).read 1).2.1.read 1).2.1.buffer =
        ((mkRA [5, 6, 7] 1 4).read 1).2.1.buffer ∧
      (((mkRA [5, 6, 7] 1 4).read 1).2.1.read 1).2.1.read_offset =
        ((mkRA [5, 6, 7] 1 4).read 1).2.1.read_offset +
          min (((mkRA [5, 6, 7] 1 4).read 1).2.1.buffer.length -
            (((mkRA [5, 6, 7] 1 4).read 1).2.1.read_offset -
              ((mkRA [5, 6, 7] 1 4).read 1).2.1.buffer_offset)) 1) :=
  ⟨by decide, eof_short_circuit ((mkRA [5, 6, 7] 1 4).read 1).2.1 1
    (by decide) (by decide) (by decide)⟩

/-- C5 counterexample: on a state with one cached byte consumed and the
wrapped file failing, `read(4)` returns the error but the decorator state is
not as if the call had not happened: `read_offset` has advanced from 1 to 4
(the three cached bytes copied before the failing refill are lost). -/
theorem read_error_not_atomic_counterexample :
    (failSt.read 4).1 = .error () ∧
    failSt.read_offset = 1 ∧
    (failSt.read 4).2.1.read_offset = 4 ∧
    (failSt.read 4).2.1 ≠ failSt := by
  decide

/-- C5 (amended): when the wrapped file fails on the refill or bypass path,
the error is propagated and the result carries no bytes, but the call is not
atomic: `read_offset` stays advanced by the cached prefix length, and on the
bypass path the buffer is additionally cleared (on the refill path it is kept). -/
theorem read_error_state (st : RA) (n : Nat) (hfail : st.file.failing = true)
    (hno : ¬((st.tryReadFromCache n).1 = true ∧
      ((st.tryReadFromCache n).2.1 = n ∨ st.buffer.length < st.readahead_size))) :
    (st.read n).1 = .error () ∧
    (st.read n).2.1.read_offset = st.read_offset + (st.tryReadFromCache n).2.1 ∧
    (st.readahead_size ≤ n - (st.tryReadFromCache n).2.1 + st.alignment →
      (st.read n).2.1.buffer = []) ∧
    (n - (st.tryReadFromCache n).2.1 + st.alignment < st.readahead_size →
      (st.read n).2.1.buffer = st.buffer) := by
  have hferr : ∀ m, st.file.fileRead m = .error () := by
    intro m
    unfold SeqFile.fileRead
    rw [hfail]
    rfl
  rw [read_fall st n _ _ _ _ (tryRead_eta st n) hno]
  dsimp only
  by_cases hbp : st.readahead_size ≤ n - (st.tryReadFromCache n).2.1 + st.alignment
  · rw [if_pos hbp, hferr]
    exact ⟨rfl, rfl, fun _ => rfl, fun hcon => absurd hbp (by omega)⟩
  · rw [if_neg hbp]
    have hriberr : ({ st with read_offset :=
        st.read_offset + (st.tryReadFromCache n).2.1 } : RA).readIntoBuffer
          st.readahead_size = .error () := by
      unfold RA.readIntoBuffer
      dsimp only
      rw [hferr]
    rw [hriberr]
    exact ⟨rfl, rfl, fun hcon => absurd hcon hbp, fun _ => rfl⟩

theorem read_error_state_witness :
    (failSt.read 4).1 = .error () ∧
    (failSt.read 4).2.1.read_offset = failSt.read_offset + (failSt.tryReadFromCache 4).2.1 ∧
    (failSt.readahead_size ≤ 4 - (failSt.tryReadFromCache 4).2.1 + failSt.alignment →
      (failSt.read 4).2.1.buffer = []) ∧
    (4 - (failSt.tryReadFromCache 4).2.1 + failSt.alignment < failSt.readahead_size →
      (failSt.read 4).2.1.buffer = failSt.buffer) :=
  read_error_state failSt 4 (by decide) (by decide)

/-- C6: from any reachable decorator state, when `k + n` does not exceed the
remaining data, `skip(k)` followed by `read(n)` returns exactly the bytes that
`read(k+n)` returns with its first `k` bytes discarded. -/
theorem skip_read_consistent (st : RA) (k n : Nat) (hInv : Inv st)
    (_hkn : st.read_offset + k + n ≤ st.file.content.length) :
    (st.read (k + n)).1 = .ok ((st.file.content.drop st.read_offset).take (k + n)) ∧
    ((st.skip k).2.1.read n).1 =
      .ok (((st.file.content.drop st.read_offset).take (k + n)).drop k) := by
  obtain ⟨hs1, hs2, hs3, hs4, hs5, hs6⟩ := skip_spec st k hInv
  obtain ⟨hr1, hr2, hr3, hr4, hr5, hr6⟩ := read_spec (st.skip k).2.1 n hs6
  refine ⟨(read_spec st (k + n) hInv).1, ?_⟩
  rw [hr1, hs3, hs2]
  congr 1
  rw [List.drop_take, List.drop_drop]
  have hkk : k + n - k = n := by omega
  rw [hkk]

theorem skip_read_consistent_witness :
    ((mkRA [0, 1, 2, 3, 4, 5] 1 4).read (1 + 2)).1 =
      .ok (((mkRA [0, 1, 2, 3, 4, 5] 1 4).file.content.drop
        (mkRA [0, 1, 2, 3, 4, 5] 1 4).read_offset).take (1 + 2)) ∧
    (((mkRA [0, 1, 2, 3, 4, 5] 1 4).skip 1).2.1.read 2).1 =
      .ok ((((mkRA [0, 1, 2, 3, 4, 5] 1 4).file.content.drop
        (mkRA [0, 1, 2, 3, 4, 5] 1 4).read_offset).take (1 + 2)).drop 1) :=
  skip_read_consistent (mkRA [0, 1, 2, 3, 4, 5] 1 4) 1 2 (by decide) (by decide)

/-- C7: from any reachable decorator state, a `read` or `skip` never decreases
`read_offset`; the direct-I/O reader cursor never decreases under its read
reservation or skip. -/
theorem cursor_monotone :
    (∀ (st : RA) (n : Nat), Inv st →
      st.read_offset ≤ (st.read n).2.1.read_offset ∧
      st.read_offset ≤ (st.skip n).2.1.read_offset) ∧
    (∀ (d : SFR) (n : Nat),
      d.offset ≤ (d.readAdvance n).offset ∧ d.offset ≤ (d.skipAdvance n).offset) := by
  constructor
  · intro st n hInv
    obtain ⟨-, hr2, -, -, -, -⟩ := read_spec st n hInv
    obtain ⟨-, hs2, -, -, -, -⟩ := skip_spec st n hInv
    constructor
    · rw [hr2]
      omega
    · rw [hs2]
      omega
  · intro d n
    exact ⟨Nat.le_add_right _ _, Nat.le_add_right _ _⟩

theorem cursor_monotone_witness :
    Inv (mkRA [3, 1, 4] 1 2) ∧
    ((mkRA [3, 1, 4] 1 2).read_offset ≤ ((mkRA [3, 1, 4] 1 2).read 2).2.1.read_offset ∧
      (mkRA [3, 1, 4] 1 2).read_offset ≤ ((mkRA [3, 1, 4] 1 2).skip 2).2.1.read_offset) ∧
    ((⟨7⟩ : SFR).offset ≤ ((⟨7⟩ : SFR).readAdvance 5).offset ∧
      (⟨7⟩ : SFR).offset ≤ ((⟨7⟩ : SFR).skipAdvance 5).offset) :=
  ⟨by decide, cursor_monotone.1 (mkRA [3, 1, 4] 1 2) 2 (by decide),
    cursor_monotone.2 ⟨7⟩ 5⟩

/-- C8: the factory returns the original source untouched exactly when the
source's required alignment is at least the requested readahead size; otherwise
it wraps, storing the requested size rounded up to a multiple of the
alignment. -/
theorem factory_spec (content : List Nat) (alignment readahead_req : Nat)
    (hal : 0 < alignment) :
    (readahead_req ≤ alignment →
      newReadaheadSequentialFile content alignment readahead_req = none) ∧
    (alignment < readahead_req →
      newReadaheadSequentialFile content alignment readahead_req =
        some (mkRA content alignment readahead_req) ∧
      (mkRA content alignment readahead_req).readahead_size =
        roundup readahead_req alignment ∧
      alignment ∣ (mkRA content alignment readahead_req).readahead_size ∧
      readahead_req ≤ (mkRA content alignment readahead_req).readahead_size) := by
  constructor
  · intro hge
    unfold newReadaheadSequentialFile
    rw [if_pos hge]
  · intro hlt
    refine ⟨?_, rfl, dvd_roundup _ _, le_roundup _ _ hal⟩
    unfold newReadaheadSequentialFile
    rw [if_neg (by omega)]

theorem factory_spec_witness :
    (1000 ≤ 512 → newReadaheadSequentialFile [1, 2] 512 1000 = none) ∧
    (512 < 1000 →
      newReadaheadSequentialFile [1, 2] 512 1000 = some (mkRA [1, 2] 512 1000) ∧
      (mkRA [1, 2] 512 1000).readahead_size = roundup 1000 512 ∧
      512 ∣ (mkRA [1, 2] 512 1000).readahead_size ∧
      1000 ≤ (mkRA [1, 2] 512 1000).readahead_size) :=
  factory_spec [1, 2] 512 1000 (by decide)

/-- C9: under direct I/O, given the bytes `tmp` returned by the positioned
read of the aligned range: when the returned data covers at least
`offset_advance` bytes the result is exactly `min(returned - offset_advance, n)`
bytes of the aligned data starting at `offset_advance`, and otherwise the
result is empty. -/
theorem direct_read_copy_out (offset n alignment : Nat) (tmp : List Nat) :
    (offset - truncateToPageBoundary alignment offset ≤ tmp.length →
      directReadResult offset n alignment tmp =
        (tmp.drop (offset - truncateToPageBoundary alignment offset)).take
          (min (tmp.length - (offset - truncateToPageBoundary alignment offset)) n) ∧
      (directReadResult offset n alignment tmp).length =
        min (tmp.length - (offset - truncateToPageBoundary alignment offset)) n) ∧
    (tmp.length < offset - truncateToPageBoundary alignment offset →
      directReadResult offset n alignment tmp = []) := by
  unfold directReadResult
  dsimp only
  constructor
  · intro hle
    by_cases hlt : offset - truncateToPageBoundary alignment offset < tmp.length
    · rw [if_pos hlt]
      refine ⟨rfl, ?_⟩
      rw [List.length_take, List.length_drop]
      omega
    · have heq : offset - truncateToPageBoundary alignment offset = tmp.length := by omega
      rw [if_neg hlt]
      constructor
      · rw [heq, Nat.sub_self, Nat.zero_min, List.take_zero]
      · rw [heq, Nat.sub_self, Nat.zero_min]
        rfl
  · intro hgt
    rw [if_neg (by omega)]

set_option maxRecDepth 8000 in
theorem direct_read_copy_out_witness :
    directReadResult 1000 300 512 (List.range 600) =
      ((List.range 600).drop (1000 - truncateToPageBoundary 512 1000)).take
        (min ((List.range 600).length - (1000 - truncateToPageBoundary 512 1000)) 300) ∧
    (directReadResult 1000 300 512 (List.range 600)).length =
      min ((List.range 600).length - (1000 - truncateToPageBoundary 512 1000)) 300 :=
  (direct_read_copy_out 1000 300 512 (List.range 600)).1 (by decide)

/-- C10: whenever a `read` takes the bypass path, or a `skip` forwards a
residual amount to the wrapped file, the buffer is cleared before the call
returns — also when the wrapped call reports an error. -/
theorem fallthrough_clears_buffer (st : RA) (n k : Nat) :
    (¬((st.tryReadFromCache n).1 = true ∧
        ((st.tryReadFromCache n).2.1 = n ∨ st.buffer.length < st.readahead_size)) →
      st.readahead_size ≤ n - (st.tryReadFromCache n).2.1 + st.alignment →
      (st.read n).2.1.buffer = []) ∧
    (0 < (if 0 < st.buffer.length then
        (if st.buffer_offset + st.buffer.length ≤ st.read_offset + k then
          k - (st.buffer_offset + st.buffer.length - st.read_offset) else 0)
      else k) →
      (st.skip k).2.1.buffer = []) := by
  constructor
  · intro hno hbp
    rw [read_fall st n _ _ _ _ (tryRead_eta st n) hno]
    dsimp only
    rw [if_pos hbp]
    cases st.file.fileRead (n - (st.tryReadFromCache n).2.1) with
    | error e => rfl
    | ok p =>
        obtain ⟨bytes, f⟩ := p
        rfl
  · intro hres
    unfold RA.skip
    by_cases hb0 : 0 < st.buffer.length
    · rw [if_pos hb0] at hres ⊢
      by_cases hbey : st.buffer_offset + st.buffer.length ≤ st.read_offset + k
      · rw [if_pos hbey] at hres ⊢
        dsimp only
        rw [if_pos hres]
        cases st.file.fileSkip
            (k - (st.buffer_offset + st.buffer.length - st.read_offset)) with
        | error e => rfl
        | ok f => rfl
      · rw [if_neg hbey] at hres
        exact absurd hres (by omega)
    · rw [if_neg hb0] at hres ⊢
      dsimp only
      rw [if_pos hres]
      cases st.file.fileSkip k with
      | error e => rfl
      | ok f => rfl

theorem fallthrough_clears_buffer_witness :
    (failStBypass.read 4).2.1.buffer = [] ∧
    ((mkRA [0, 1, 2] 1 2).skip 5).2.1.buffer = [] :=
  ⟨(fallthrough_clears_buffer failStBypass 4 0).1 (by decide) (by decide),
    (fallthrough_clears_buffer (mkRA [0, 1, 2] 1 2) 0 5).2 (by decide)⟩

end SeqFileReader
